import Mathlib

/-!
Verification of the dump-analyzer scan engine and interactive browser
(src/main.rs) against its specification.

Bytes are modelled as `Nat` (the source's `u8` values all stay below 256 and
no arithmetic overflows occur in the scanned code paths), byte buffers as
`List Nat`, and Rust strings as Lean `String` (user input as `List Char`,
mirroring `str::chars`).
-/

namespace DumpAnalyzer

/-- A named byte signature (struct `Pattern` in main.rs). -/
structure Pattern where
  name : String
  bytes : List Nat
deriving DecidableEq

/-- One finding (struct `ResultEntry` in main.rs). -/
structure ResultEntry where
  content : String
  address : Nat
  bytes : List Nat
deriving DecidableEq

/-- Aggregate counts (struct `Summary` in main.rs). -/
structure Summary where
  total_entries : Nat
  total_patterns : Nat
  total_ascii_strings : Nat
deriving DecidableEq

/-- `u8::is_ascii_graphic`: the range `0x21..=0x7E`. -/
def isAsciiGraphic (b : Nat) : Bool :=
  33 ≤ b && b ≤ 126

/-- The byte test used by `find_ascii_strings`:
`byte.is_ascii_graphic() || byte == b' '`. -/
def isStringByte (b : Nat) : Bool :=
  isAsciiGraphic b || b == 32

/-- `String::from_utf8_lossy` restricted to the printable/space bytes that can
occur in a run: each byte below 0x80 decodes to the corresponding character. -/
def lossyAscii (l : List Nat) : String :=
  String.mk (l.map Char.ofNat)

/-- The `ResultEntry` pushed by `find_ascii_strings` for a run starting at
in-chunk index `start`. -/
def asciiEntry (chunk_offset start : Nat) (run : List Nat) : ResultEntry :=
  { content := "ASCII String \x27" ++ lossyAscii run ++ "\x27"
    address := chunk_offset + start
    bytes := run }

/-- The `ResultEntry` pushed by `detect_patterns` for a match at absolute
address `addr`. -/
def patternEntry (p : Pattern) (addr : Nat) : ResultEntry :=
  { content := "Pattern \x27" ++ p.name ++ "\x27"
    address := addr
    bytes := p.bytes }

/-- The byte-by-byte loop of `find_ascii_strings`: `cur` is
`current_string`, `start` is `start_index`, `i` the enumeration index and
`acc` the `result` vector.  After the loop, a still-open run of sufficient
length is flushed (the trailing `if` of the source). -/
def findAsciiGo (chunk_offset min_length : Nat) :
    List Nat → Nat → List Nat → Nat → List ResultEntry → List ResultEntry
  | [], _, cur, start, acc =>
    if min_length ≤ cur.length then acc ++ [asciiEntry chunk_offset start cur] else acc
  | b :: rest, i, cur, start, acc =>
    if isStringByte b then
      findAsciiGo chunk_offset min_length rest (i + 1) (cur ++ [b])
        (if cur.isEmpty then i else start) acc
    else if min_length ≤ cur.length then
      findAsciiGo chunk_offset min_length rest (i + 1) [] start
        (acc ++ [asciiEntry chunk_offset start cur])
    else
      findAsciiGo chunk_offset min_length rest (i + 1) [] start acc

/-- `find_ascii_strings` from main.rs. -/
def find_ascii_strings (chunk : List Nat) (chunk_offset min_length : Nat) :
    List ResultEntry :=
  findAsciiGo chunk_offset min_length chunk 0 [] 0 []

/-- `memmem::find`: index of the first occurrence of `pat` in `hay`
(`some 0` for an empty needle). -/
def memmemFind : List Nat → List Nat → Option Nat
  | [], pat => if pat.isEmpty then some 0 else none
  | a :: t, pat =>
    if (a :: t).length < pat.length then none
    else if (a :: t).take pat.length == pat then some 0
    else (memmemFind t pat).map (· + 1)

/-- The `while let Some(pos) = memmem::find(&chunk[start..], pattern.bytes)`
loop of `detect_patterns`: report a match at `chunk_offset + start + pos`,
then resume at `start + pos + 1`.  `fuel` only bounds the iteration count;
`chunk.length + 1` iterations always suffice for a non-empty pattern (the
source never runs the loop with an empty pattern). -/
def detectGo (p : Pattern) (chunk : List Nat) (chunk_offset : Nat) :
    Nat → Nat → List ResultEntry
  | _, 0 => []
  | start, fuel + 1 =>
    match memmemFind (chunk.drop start) p.bytes with
    | none => []
    | some pos =>
      patternEntry p (chunk_offset + start + pos) ::
        detectGo p chunk chunk_offset (start + pos + 1) fuel

/-- `detect_patterns` from main.rs: patterns are scanned in table order and
their matches concatenated in discovery order. -/
def detect_patterns (chunk : List Nat) (chunk_offset : Nat)
    (patterns : List Pattern) : List ResultEntry :=
  (patterns.map (fun p => detectGo p chunk chunk_offset 0 (chunk.length + 1))).flatten

/-- Fuelled worker for `slice::chunks`; fuel `l.length` suffices for a
positive chunk size. -/
def chunksGo (n : Nat) : Nat → List Nat → List (List Nat)
  | 0, _ => []
  | _ + 1, [] => []
  | fuel + 1, a :: t => (a :: t).take n :: chunksGo n fuel ((a :: t).drop n)

/-- `data.chunks(n)`: consecutive non-overlapping chunks of `n` bytes, the
final chunk possibly shorter (the source only calls this with `n > 0`). -/
def chunksOf (n : Nat) (l : List Nat) : List (List Nat) :=
  chunksGo n l.length l

/-- The per-chunk loop of `analyze_dump`: for the chunk with index `i`,
ASCII results are appended before pattern results, and the two counters
accumulate the per-detector counts. -/
def analyzeChunks (patterns : List Pattern) (chunk_size min_string_length : Nat) :
    List (List Nat) → Nat → List ResultEntry × Nat × Nat
  | [], _ => ([], 0, 0)
  | chunk :: rest, i =>
    let chunk_offset := i * chunk_size
    let ascii_results := find_ascii_strings chunk chunk_offset min_string_length
    let pattern_results := detect_patterns chunk chunk_offset patterns
    let r := analyzeChunks patterns chunk_size min_string_length rest (i + 1)
    (ascii_results ++ pattern_results ++ r.1,
     pattern_results.length + r.2.1,
     ascii_results.length + r.2.2)

/-- `analyze_dump` from main.rs, applied to an already-read buffer (file
reading is an external collaborator). -/
def analyze_dump (data : List Nat) (patterns : List Pattern)
    (chunk_size min_string_length : Nat) : List ResultEntry × Summary :=
  let r := analyzeChunks patterns chunk_size min_string_length
    (chunksOf chunk_size data) 0
  (r.1, { total_entries := r.1.length
          total_patterns := r.2.1
          total_ascii_strings := r.2.2 })

/-! ### User-input parsing (hex strings and addresses) -/

/-- `char::to_digit(16)`. -/
def hexDigit (c : Char) : Option Nat :=
  if '0' ≤ c ∧ c ≤ '9' then some (c.toNat - '0'.toNat)
  else if 'a' ≤ c ∧ c ≤ 'f' then some (c.toNat - 'a'.toNat + 10)
  else if 'A' ≤ c ∧ c ≤ 'F' then some (c.toNat - 'A'.toNat + 10)
  else none

/-- Hex values of a digit string, `none` if any character is not a hex digit. -/
def hexDigits : List Char → Option (List Nat)
  | [] => some []
  | c :: t =>
    match hexDigit c, hexDigits t with
    | some d, some ds => some (d :: ds)
    | _, _ => none

/-- Rust `from_str_radix(s, 16)` for an unsigned integer type with maximum
value `maxVal`: an optional single leading `+` or `-` sign, then a non-empty
run of hex digits; a `-` sign only parses when the digits are all zero
(checked subtraction), and the accumulated value must fit below `maxVal`
(checked multiplication/addition, equivalent to a bound on the final value
since the accumulator grows monotonically). -/
def fromStrRadix16 (maxVal : Nat) (s : List Char) : Option Nat :=
  match s with
  | [] => none
  | c :: rest =>
    let digits := if c == '+' || c == '-' then rest else s
    match hexDigits digits with
    | none => none
    | some ds =>
      if ds.isEmpty then none
      else if c == '-' then (if ds.all (· == 0) then some 0 else none)
      else if ds.foldl (fun a d => a * 16 + d) 0 ≤ maxVal then
        some (ds.foldl (fun a d => a * 16 + d) 0)
      else none

/-- `usize::MAX` on the 64-bit targets the tool runs on. -/
def usizeMax : Nat := 2 ^ 64 - 1

/-- `slice::chunks(2)` over the characters of the input string: pairs, with a
trailing singleton for odd length. -/
def chunksPairs : List Char → List (List Char)
  | [] => []
  | [a] => [[a]]
  | a :: b :: rest => [a, b] :: chunksPairs rest

/-- `hex_string_to_bytes` from main.rs: each 2-character group (or trailing
1-character group) is parsed with `u8::from_str_radix(_, 16)`; any failing
group makes the whole conversion fail. -/
def hex_string_to_bytes (hex : List Char) : Option (List Nat) :=
  (chunksPairs hex).mapM (fromStrRadix16 255)

/-- `str::trim_start_matches("0x")`: repeatedly strips the prefix `0x`. -/
def trim0x : List Char → List Char
  | '0' :: 'x' :: rest => trim0x rest
  | l => l

/-! ### The interactive browser state machine (`run_ui`) -/

/-- enum `PopupMode` in main.rs (`None` = the spec's `Normal` mode,
`Search` = `SearchInput`, `GoToAddress` = `GoToAddressInput`). -/
inductive PopupMode where
  | none
  | search
  | goToAddress
deriving DecidableEq

/-- The key events the `run_ui` match statement distinguishes. -/
inductive Key where
  | char (c : Char)
  | enter
  | esc
  | backspace
  | up
  | down
deriving DecidableEq

/-- The mutable state of the `run_ui` event loop (`scroll_offset` is mutated
only by the draw closure and never read by any transition, so it is not
modelled). -/
structure UiState where
  selected_index : Nat
  popup_mode : PopupMode
  input : List Char
  error_message : Option String
deriving DecidableEq

/-- The state at entry of the event loop:
`selected_index = 0`, no popup, empty input, no error. -/
def initUiState : UiState :=
  { selected_index := 0
    popup_mode := PopupMode.none
    input := []
    error_message := Option.none }

/-- `Iterator::position`: index of the first element satisfying `p`. -/
def position {α : Type} (p : α → Bool) : List α → Option Nat
  | [] => Option.none
  | a :: t => if p a then some 0 else (position p t).map (· + 1)

/-- The `(KeyCode::Enter, PopupMode::Search)` arm of `run_ui`. -/
def searchEnter (results : List ResultEntry) (s : UiState) : UiState × Bool :=
  match hex_string_to_bytes s.input with
  | some bytes =>
    match position (fun e => e.bytes == bytes) results with
    | some index =>
      ({ s with selected_index := index, popup_mode := PopupMode.none }, false)
    | Option.none => ({ s with error_message := some "No match found" }, false)
  | Option.none => ({ s with error_message := some "Invalid hex format" }, false)

/-- The `(KeyCode::Enter, PopupMode::GoToAddress)` arm of `run_ui`. -/
def gotoEnter (results : List ResultEntry) (s : UiState) : UiState × Bool :=
  match fromStrRadix16 usizeMax (trim0x s.input) with
  | some addr =>
    match position (fun e => decide (addr ≤ e.address)) results with
    | some index =>
      ({ s with selected_index := index, popup_mode := PopupMode.none }, false)
    | Option.none => ({ s with error_message := some "Address not found" }, false)
  | Option.none => ({ s with error_message := some "Invalid address format" }, false)

/-- One iteration of the `run_ui` event match: the next state, plus `true`
when the arm `break`s out of the loop.  The arms appear exactly as in the
source; `max_scroll` is `results.len().saturating_sub(1)`. -/
def uiStep (results : List ResultEntry) (s : UiState) (k : Key) : UiState × Bool :=
  match k, s.popup_mode with
  | Key.char c, PopupMode.none =>
    if c = '/' then
      ({ s with popup_mode := PopupMode.search, input := [],
                error_message := Option.none }, false)
    else if c = 'g' then
      ({ s with popup_mode := PopupMode.goToAddress, input := [],
                error_message := Option.none }, false)
    else if c = 'q' then (s, true)
    else (s, false)
  | Key.enter, PopupMode.search => searchEnter results s
  | Key.enter, PopupMode.goToAddress => gotoEnter results s
  | Key.esc, PopupMode.search => ({ s with popup_mode := PopupMode.none }, false)
  | Key.esc, PopupMode.goToAddress => ({ s with popup_mode := PopupMode.none }, false)
  | Key.char c, PopupMode.search => ({ s with input := s.input ++ [c] }, false)
  | Key.char c, PopupMode.goToAddress => ({ s with input := s.input ++ [c] }, false)
  | Key.backspace, PopupMode.search => ({ s with input := s.input.dropLast }, false)
  | Key.backspace, PopupMode.goToAddress => ({ s with input := s.input.dropLast }, false)
  | Key.up, PopupMode.none =>
    ({ s with selected_index :=
        if 0 < s.selected_index then s.selected_index - 1 else s.selected_index },
     false)
  | Key.down, PopupMode.none =>
    ({ s with selected_index :=
        if s.selected_index < results.length - 1 then s.selected_index + 1
        else s.selected_index },
     false)
  | Key.esc, PopupMode.none => (s, true)
  | _, _ => (s, false)

/-- Folding a sequence of key events through the event loop (states only). -/
def uiRun (results : List ResultEntry) (s : UiState) (ks : List Key) : UiState :=
  ks.foldl (fun st k => (uiStep results st k).1) s

/-! ### Specification-side definitions, used to state the claims -/

/-- All in-chunk offsets at which `pat` occurs in `chunk` (in increasing
order): the exact-substring-occurrence set the spec's "every occurrence"
refers to. -/
def occList (chunk pat : List Nat) : List Nat :=
  (List.range (chunk.length + 1 - pat.length)).filter
    (fun i => (chunk.drop i).take pat.length == pat)

/-- The maximal runs of printable-graphic-or-space bytes of a buffer, with
their start offsets, `i` being the offset of the first listed byte: a run
starts at a printable byte, extends as far as printable bytes go
(`takeWhile`), and scanning resumes after it.  Modelled from the spec:
"a run is any maximal contiguous sequence of bytes that are
printable-graphic or the space character". -/
def maximalRuns : List Nat → Nat → List (Nat × List Nat)
  | [], _ => []
  | b :: rest, i =>
    if isStringByte b then
      (i, b :: rest.takeWhile isStringByte) ::
        maximalRuns (rest.dropWhile isStringByte)
          (i + 1 + (rest.takeWhile isStringByte).length)
    else
      maximalRuns rest (i + 1)
termination_by l _ => l.length
decreasing_by
  · simp only [List.length_cons]
    exact Nat.lt_succ_of_le (List.dropWhile_sublist isStringByte).length_le
  · simp only [List.length_cons]
    exact Nat.lt_succ_self _

/-- The maximal runs of the part of the buffer not yet scanned by
`findAsciiGo`, given that the bytes `cur` (ending right before `rest`,
starting at offset `start`) are the printable bytes read so far. -/
def runsCont (cur : List Nat) (start : Nat) (rest : List Nat) (i : Nat) :
    List (Nat × List Nat) :=
  if cur.isEmpty then maximalRuns rest i
  else
    (start, cur ++ rest.takeWhile isStringByte) ::
      maximalRuns (rest.dropWhile isStringByte)
        (i + (rest.takeWhile isStringByte).length)

/-- Integer clamp, as used by the spec's navigation formula. -/
def clampInt (x lo hi : Int) : Int := max lo (min x hi)

/-- Per-press clamped cursor updates: `Up` decrements saturating at 0,
`Down` increments saturating at `len - 1`. -/
def navFold (len init : Nat) (ks : List Key) : Nat :=
  ks.foldl (fun v k => if k = Key.up then v - 1 else min (v + 1) (len - 1)) init

/-- Stripping at most one leading `0x`, the literal reading of the claim's
"optional leading 0x stripped". -/
def stripOnce0x : List Char → List Char
  | '0' :: 'x' :: rest => rest
  | l => l

/-! ## Helper lemmas -/

/-- A list's prefix of the length of its `takeWhile` is that `takeWhile`. -/
theorem take_length_takeWhile (p : Nat → Bool) :
    ∀ l : List Nat, l.take (l.takeWhile p).length = l.takeWhile p := by
  intro l
  induction l with
  | nil => simp
  | cons a t ih =>
    by_cases h : p a
    · simp [List.takeWhile_cons_of_pos h, ih]
    · simp [List.takeWhile_cons_of_neg h]

/-- `dropWhile` is `drop` by the length of the `takeWhile`. -/
theorem dropWhile_eq_drop (p : Nat → Bool) :
    ∀ l : List Nat, l.dropWhile p = l.drop (l.takeWhile p).length := by
  intro l
  induction l with
  | nil => simp
  | cons a t ih =>
    by_cases h : p a
    · simp [List.takeWhile_cons_of_pos h, List.dropWhile_cons_of_pos h, ih]
    · simp [List.takeWhile_cons_of_neg h, List.dropWhile_cons_of_neg h]

/-- The `find_ascii_strings` loop emits, after the already accumulated
entries, exactly one entry per maximal run of length at least `min_length`
among the runs of the unscanned input (prepended with the currently open
run `cur`). -/
theorem findAsciiGo_eq (co ml : Nat) (hmin : 0 < ml) :
    ∀ (rest : List Nat) (i : Nat) (cur : List Nat) (start : Nat)
      (acc : List ResultEntry),
    findAsciiGo co ml rest i cur start acc =
      acc ++ ((runsCont cur start rest i).filter
        (fun r => ml ≤ r.2.length)).map (fun r => asciiEntry co r.1 r.2) := by
  intro rest
  induction rest with
  | nil =>
    intro i cur start acc
    cases cur with
    | nil =>
      simp [findAsciiGo, runsCont, maximalRuns]
      omega
    | cons c cs =>
      have hrc : runsCont (c :: cs) start [] i = [(start, c :: cs)] := by
        simp [runsCont, maximalRuns]
      rw [hrc]
      by_cases hc : ml ≤ cs.length + 1
      · simp [findAsciiGo, hc]
      · simp [findAsciiGo, hc]
  | cons b rest ih =>
    intro i cur start acc
    by_cases hb : isStringByte b
    · rw [findAsciiGo]
      simp only [hb, if_true]
      rw [ih]
      have hruns : runsCont (cur ++ [b]) (if cur.isEmpty then i else start)
          rest (i + 1) = runsCont cur start (b :: rest) i := by
        cases cur with
        | nil =>
          rw [show (([] : List Nat) ++ [b]) = [b] by simp]
          simp only [runsCont, List.isEmpty_nil, List.isEmpty_cons, if_true,
            if_false, Bool.false_eq_true]
          rw [maximalRuns]
          simp only [hb, if_true, List.cons_append, List.nil_append]
        | cons c cs =>
          simp only [runsCont, List.isEmpty_cons, List.cons_append,
            if_false, Bool.false_eq_true]
          rw [List.takeWhile_cons_of_pos hb, List.dropWhile_cons_of_pos hb]
          congr 1
          · simp [List.append_assoc]
          · congr 1
            simp only [List.length_cons]
            omega
      rw [hruns]
    · have hmr : maximalRuns (b :: rest) i = maximalRuns rest (i + 1) := by
        rw [maximalRuns]
        simp [hb]
      by_cases hc : ml ≤ cur.length
      · have hcur : cur.isEmpty = false := by
          cases cur with
          | nil =>
            simp only [List.length_nil, Nat.le_zero] at hc
            omega
          | cons c cs => simp
        rw [findAsciiGo]
        simp only [hb, if_false, hc, if_true, Bool.false_eq_true]
        rw [ih]
        have hruns : runsCont cur start (b :: rest) i =
            (start, cur) :: maximalRuns rest (i + 1) := by
          simp only [runsCont, hcur, if_false,
            List.takeWhile_cons_of_neg hb, List.dropWhile_cons_of_neg hb,
            List.takeWhile_nil, List.append_nil, List.length_nil, Nat.add_zero,
            Bool.false_eq_true]
          rw [hmr]
        rw [hruns]
        have hrc : runsCont ([] : List Nat) start rest (i + 1) =
            maximalRuns rest (i + 1) := by
          simp [runsCont]
        rw [hrc, List.filter_cons]
        simp [hc]
      · rw [findAsciiGo]
        simp only [hb, if_false, hc, Bool.false_eq_true]
        rw [ih]
        have hrc : runsCont ([] : List Nat) start rest (i + 1) =
            maximalRuns rest (i + 1) := by
          simp [runsCont]
        rw [hrc]
        cases cur with
        | nil =>
          have hrc2 : runsCont ([] : List Nat) start (b :: rest) i =
              maximalRuns (b :: rest) i := by
            simp [runsCont]
          rw [hrc2, hmr]
        | cons c cs =>
          have hruns : runsCont (c :: cs) start (b :: rest) i =
              (start, c :: cs) :: maximalRuns rest (i + 1) := by
            simp only [runsCont, List.isEmpty_cons, if_false,
              List.takeWhile_cons_of_neg hb, List.dropWhile_cons_of_neg hb,
              List.takeWhile_nil, List.append_nil, List.length_nil,
              Nat.add_zero, Bool.false_eq_true]
            rw [hmr]
          rw [hruns, List.filter_cons]
          simp only [List.length_cons] at hc
          simp [hc]

/-- `find_ascii_strings` produces exactly one finding per maximal
printable-or-space run of length at least `min_length`, in run order, with
address `chunk_offset +` run start and bytes the run itself. -/
theorem find_ascii_strings_eq (chunk : List Nat) (co ml : Nat) (hmin : 0 < ml) :
    find_ascii_strings chunk co ml =
      ((maximalRuns chunk 0).filter (fun r => ml ≤ r.2.length)).map
        (fun r => asciiEntry co r.1 r.2) := by
  rw [find_ascii_strings, findAsciiGo_eq co ml hmin]
  simp [runsCont]

/-- If `memmemFind` reports no match, the pattern occurs nowhere. -/
theorem memmemFind_none :
    ∀ (hay pat : List Nat), memmemFind hay pat = Option.none →
      ∀ q, (hay.drop q).take pat.length ≠ pat := by
  intro hay
  induction hay with
  | nil =>
    intro pat h q
    cases pat with
    | nil => simp [memmemFind] at h
    | cons p ps => simp
  | cons a t ih =>
    intro pat h q
    simp only [memmemFind] at h
    by_cases hl : (a :: t).length < pat.length
    · intro heq
      have hlen := congrArg List.length heq
      simp only [List.length_take, List.length_drop, List.length_cons]
        at hlen hl
      omega
    · rw [if_neg hl] at h
      by_cases he : (a :: t).take pat.length == pat
      · rw [if_pos he] at h
        simp at h
      · rw [if_neg he] at h
        have ht : memmemFind t pat = Option.none := by
          cases hmm : memmemFind t pat with
          | none => rfl
          | some p' => rw [hmm] at h; simp at h
        cases q with
        | zero =>
          simpa using he
        | succ q =>
          simpa using ih pat ht q

/-- If `memmemFind` reports a match at `p`, the pattern occurs there and
nowhere earlier. -/
theorem memmemFind_some :
    ∀ (hay pat : List Nat) (p : Nat), memmemFind hay pat = some p →
      (hay.drop p).take pat.length = pat ∧
        ∀ q < p, (hay.drop q).take pat.length ≠ pat := by
  intro hay
  induction hay with
  | nil =>
    intro pat p h
    cases pat with
    | nil =>
      simp only [memmemFind, List.isEmpty_nil, if_true] at h
      obtain rfl : p = 0 := by simpa using h.symm
      exact ⟨rfl, by omega⟩
    | cons c cs => simp [memmemFind] at h
  | cons a t ih =>
    intro pat p h
    simp only [memmemFind] at h
    by_cases hl : (a :: t).length < pat.length
    · rw [if_pos hl] at h
      simp at h
    · rw [if_neg hl] at h
      by_cases he : (a :: t).take pat.length == pat
      · rw [if_pos he] at h
        obtain rfl : p = 0 := by simpa using h.symm
        refine ⟨by simpa using he, by omega⟩
      · rw [if_neg he] at h
        cases hmm : memmemFind t pat with
        | none => rw [hmm] at h; simp at h
        | some p' =>
          rw [hmm] at h
          obtain rfl : p = p' + 1 := by simpa using h.symm
          obtain ⟨h1, h2⟩ := ih pat p' hmm
          refine ⟨by simpa using h1, ?_⟩
          intro q hq
          cases q with
          | zero => simpa using he
          | succ q' =>
            have := h2 q' (by omega)
            simpa using this

/-- Membership in the occurrence list is exactly occurrence of the pattern. -/
theorem mem_occList (chunk pat : List Nat) (hne : pat ≠ []) (i : Nat) :
    i ∈ occList chunk pat ↔ (chunk.drop i).take pat.length = pat := by
  unfold occList
  rw [List.mem_filter, List.mem_range]
  constructor
  · intro h
    simpa using h.2
  · intro hp
    refine ⟨?_, by simpa using hp⟩
    have hlen := congrArg List.length hp
    simp only [List.length_take, List.length_drop] at hlen
    have hpos : 0 < pat.length := List.length_pos.mpr hne
    omega

/-- Occurrence offsets are listed in strictly increasing order. -/
theorem occList_pairwise (chunk pat : List Nat) :
    (occList chunk pat).Pairwise (· < ·) :=
  (List.pairwise_lt_range _).filter _

/-- Filtering an increasing list of naturals at threshold `s`, when its least
element `≥ s` is `a`, keeps `a` and then everything past `a`. -/
theorem filter_le_eq_cons :
    ∀ (L : List Nat) (s a : Nat), L.Pairwise (· < ·) → a ∈ L → s ≤ a →
      (∀ x ∈ L, s ≤ x → a ≤ x) →
      L.filter (fun x => decide (s ≤ x)) =
        a :: L.filter (fun x => decide (a + 1 ≤ x)) := by
  intro L
  induction L with
  | nil =>
    intro s a _ hm
    simp at hm
  | cons b t ih =>
    intro s a hp hm hs hmin
    rw [List.pairwise_cons] at hp
    obtain ⟨hb, hp'⟩ := hp
    rcases List.mem_cons.mp hm with rfl | hmt
    · have h2 : ¬ a + 1 ≤ a := by omega
      rw [List.filter_cons, List.filter_cons]
      simp only [hs, decide_eq_true_eq, h2, if_true, if_false]
      have hall1 : t.filter (fun x => decide (s ≤ x)) = t := by
        rw [List.filter_eq_self]
        intro x hx
        have := hb x hx
        simp
        omega
      have hall2 : t.filter (fun x => decide (a + 1 ≤ x)) = t := by
        rw [List.filter_eq_self]
        intro x hx
        have := hb x hx
        simp
        omega
      rw [hall1, hall2]
    · have hba : b < a := hb a hmt
      have hbs : b < s := by
        by_contra hc
        have := hmin b (List.mem_cons_self b t) (by omega)
        omega
      rw [List.filter_cons, List.filter_cons]
      rw [if_neg (by simp; omega), if_neg (by simp; omega)]
      exact ih s a hp' hmt hs (fun x hx => hmin x (List.mem_cons_of_mem b hx))

/-- The match loop of `detect_patterns`, started at `start = s` with enough
fuel, reports exactly the occurrences at offsets `≥ s`, in increasing order,
each with address `chunk_offset +` offset and bytes the pattern bytes. -/
theorem detectGo_eq (p : Pattern) (chunk : List Nat) (co : Nat)
    (hne : p.bytes ≠ []) :
    ∀ (fuel s : Nat), chunk.length + 1 ≤ s + fuel →
      detectGo p chunk co s fuel =
        ((occList chunk p.bytes).filter (fun i => decide (s ≤ i))).map
          (fun i => patternEntry p (co + i)) := by
  intro fuel
  induction fuel with
  | zero =>
    intro s hs
    have hnil : (occList chunk p.bytes).filter (fun i => decide (s ≤ i)) = [] := by
      rw [List.filter_eq_nil_iff]
      intro i hi
      have hb : i < chunk.length + 1 - p.bytes.length := by
        have := (List.mem_filter.mp hi).1
        simpa using this
      have hpos : 0 < p.bytes.length := List.length_pos.mpr hne
      simp
      omega
    rw [hnil, detectGo]
    simp
  | succ fuel ih =>
    intro s hs
    cases hmm : memmemFind (chunk.drop s) p.bytes with
    | none =>
      have hnil : (occList chunk p.bytes).filter (fun i => decide (s ≤ i)) = [] := by
        rw [List.filter_eq_nil_iff]
        intro i hi
        simp only [decide_eq_true_eq]
        intro hsi
        have htake := (mem_occList chunk p.bytes hne i).mp hi
        have := memmemFind_none _ _ hmm (i - s)
        rw [List.drop_drop] at this
        rw [show s + (i - s) = i by omega] at this
        exact this htake
      rw [hnil]
      simp only [detectGo, hmm, List.map_nil]
    | some pos =>
      obtain ⟨h1, h2⟩ := memmemFind_some _ _ _ hmm
      rw [List.drop_drop] at h1
      have hmem : (s + pos) ∈ occList chunk p.bytes :=
        (mem_occList chunk p.bytes hne _).mpr h1
      have hmin : ∀ x ∈ occList chunk p.bytes, s ≤ x → s + pos ≤ x := by
        intro x hx hsx
        by_contra hc
        have hxq := (mem_occList chunk p.bytes hne x).mp hx
        have := h2 (x - s) (by omega)
        rw [List.drop_drop, show s + (x - s) = x by omega] at this
        exact this hxq
      rw [filter_le_eq_cons (occList chunk p.bytes) s (s + pos)
        (occList_pairwise chunk p.bytes) hmem (by omega) hmin]
      rw [List.map_cons]
      rw [← ih (s + pos + 1) (by omega)]
      simp only [detectGo, hmm]
      rw [show co + s + pos = co + (s + pos) by omega]

/-- `detect_patterns` reports, for each pattern in table order, all
occurrences of its byte sequence in the chunk, in increasing offset order. -/
theorem detect_patterns_eq (chunk : List Nat) (co : Nat)
    (patterns : List Pattern) (h : ∀ p ∈ patterns, p.bytes ≠ []) :
    detect_patterns chunk co patterns =
      (patterns.map (fun p => (occList chunk p.bytes).map
        (fun i => patternEntry p (co + i)))).flatten := by
  unfold detect_patterns
  congr 1
  apply List.map_congr_left
  intro p hp
  rw [detectGo_eq p chunk co (h p hp) (chunk.length + 1) 0 (by omega)]
  congr 1
  rw [List.filter_eq_self]
  intro i _
  simp

/-- The `i`-th chunk is the slice of the buffer from `i * n`, of length at
most `n`. -/
theorem chunksGo_getElem? (n : Nat) (hn : 0 < n) :
    ∀ (fuel : Nat) (l : List Nat), l.length ≤ fuel → ∀ i,
      (chunksGo n fuel l)[i]? =
        if i * n < l.length then some ((l.drop (i * n)).take n)
        else Option.none := by
  intro fuel
  induction fuel with
  | zero =>
    intro l hl i
    obtain rfl : l = [] := List.length_eq_zero.mp (Nat.le_zero.mp hl)
    simp [chunksGo]
  | succ fuel ih =>
    intro l hl i
    cases l with
    | nil => simp [chunksGo]
    | cons a t =>
      rw [chunksGo]
      cases i with
      | zero => simp
      | succ i =>
        rw [List.getElem?_cons_succ]
        rw [ih ((a :: t).drop n)
          (by simp only [List.length_drop, List.length_cons] at hl ⊢; omega) i]
        have hd : (((a :: t).drop n).drop (i * n)) = (a :: t).drop ((i + 1) * n) := by
          rw [List.drop_drop]
          congr 1
          ring
        have hlen : ((a :: t).drop n).length = (a :: t).length - n := by simp
        rw [hd, hlen]
        have hcond : (i * n < (a :: t).length - n) ↔ ((i + 1) * n < (a :: t).length) := by
          rw [Nat.succ_mul]
          simp only [List.length_cons]
          generalize i * n = m
          omega
        rw [if_congr hcond rfl rfl]

/-- Indexed membership for `enumFrom`. -/
theorem mem_enumFrom_getElem? {α : Type} :
    ∀ (l : List α) (j : Nat) (p : Nat × α), p ∈ l.enumFrom j →
      j ≤ p.1 ∧ l[p.1 - j]? = some p.2 := by
  intro l
  induction l with
  | nil =>
    intro j p h
    simp [List.enumFrom] at h
  | cons a t ih =>
    intro j p h
    rw [show List.enumFrom j (a :: t) = (j, a) :: List.enumFrom (j + 1) t from rfl] at h
    rcases List.mem_cons.mp h with rfl | ht
    · simp
    · obtain ⟨h1, h2⟩ := ih (j + 1) p ht
      refine ⟨by omega, ?_⟩
      rw [show p.1 - j = (p.1 - (j + 1)) + 1 by omega, List.getElem?_cons_succ]
      exact h2

/-- The scan loop concatenates, per chunk in order, the ASCII findings then
the pattern findings of that chunk. -/
theorem analyzeChunks_fst (ps : List Pattern) (cs ml : Nat) :
    ∀ (chs : List (List Nat)) (i : Nat),
      (analyzeChunks ps cs ml chs i).1 =
        ((chs.enumFrom i).map (fun ic =>
          find_ascii_strings ic.2 (ic.1 * cs) ml ++
            detect_patterns ic.2 (ic.1 * cs) ps)).flatten := by
  intro chs
  induction chs with
  | nil =>
    intro i
    simp [analyzeChunks, List.enumFrom]
  | cons ch rest ih =>
    intro i
    rw [show List.enumFrom i (ch :: rest) = (i, ch) :: List.enumFrom (i + 1) rest
      from rfl]
    simp only [analyzeChunks, List.map_cons, List.flatten_cons]
    rw [ih (i + 1)]

/-- The number of accumulated results equals the sum of the two counters. -/
theorem analyzeChunks_counts (ps : List Pattern) (cs ml : Nat) :
    ∀ (chs : List (List Nat)) (i : Nat),
      (analyzeChunks ps cs ml chs i).1.length =
        (analyzeChunks ps cs ml chs i).2.1 +
          (analyzeChunks ps cs ml chs i).2.2 := by
  intro chs
  induction chs with
  | nil =>
    intro i
    simp [analyzeChunks]
  | cons ch rest ih =>
    intro i
    simp only [analyzeChunks, List.length_append]
    have := ih (i + 1)
    omega

/-- `analyze_dump`'s finding store, per chunk. -/
theorem analyze_dump_fst (data : List Nat) (ps : List Pattern) (cs ml : Nat) :
    (analyze_dump data ps cs ml).1 =
      (((chunksOf cs data).enum).map (fun ic =>
        find_ascii_strings ic.2 (ic.1 * cs) ml ++
          detect_patterns ic.2 (ic.1 * cs) ps)).flatten := by
  show (analyzeChunks ps cs ml (chunksOf cs data) 0).1 = _
  exact analyzeChunks_fst ps cs ml (chunksOf cs data) 0

/-- The summary counts add up. -/
theorem analyze_dump_counts (data : List Nat) (ps : List Pattern) (cs ml : Nat) :
    (analyze_dump data ps cs ml).2.total_entries =
      (analyze_dump data ps cs ml).2.total_patterns +
        (analyze_dump data ps cs ml).2.total_ascii_strings :=
  analyzeChunks_counts ps cs ml (chunksOf cs data) 0

/-- Every element the ASCII loop emits is an accumulated entry or an
`asciiEntry`. -/
theorem findAsciiGo_mem_shape (co ml : Nat) :
    ∀ (rest : List Nat) (i : Nat) (cur : List Nat) (start : Nat)
      (acc : List ResultEntry) (e : ResultEntry),
      e ∈ findAsciiGo co ml rest i cur start acc →
      e ∈ acc ∨ ∃ st run, e = asciiEntry co st run := by
  intro rest
  induction rest with
  | nil =>
    intro i cur start acc e h
    rw [findAsciiGo] at h
    split at h
    · rcases List.mem_append.mp h with h | h
      · exact Or.inl h
      · exact Or.inr ⟨start, cur, by simpa using h⟩
    · exact Or.inl h
  | cons b rest ih =>
    intro i cur start acc e h
    rw [findAsciiGo] at h
    split at h
    · exact ih _ _ _ _ _ h
    · split at h
      · rcases ih _ _ _ _ _ h with h | h
        · rcases List.mem_append.mp h with h | h
          · exact Or.inl h
          · exact Or.inr ⟨start, cur, by simpa using h⟩
        · exact Or.inr h
      · exact ih _ _ _ _ _ h

/-- The two content labels can never coincide. -/
theorem ascii_content_ne_pattern_content (s t : String) :
    "ASCII String \x27" ++ s ++ "\x27" ≠ "Pattern \x27" ++ t ++ "\x27" := by
  intro h
  have hd := congrArg String.data h
  rw [String.data_append, String.data_append, String.data_append,
    String.data_append] at hd
  rw [show ("ASCII String \x27" : String).data =
    'A' :: ("SCII String \x27" : String).data from rfl] at hd
  rw [show ("Pattern \x27" : String).data =
    'P' :: ("attern \x27" : String).data from rfl] at hd
  rw [List.cons_append, List.cons_append] at hd
  injection hd with h1 _
  exact absurd h1 (by decide)

/-- A run listed by `maximalRuns l i` (offsets relative to base `i`) is a
slice of `l`. -/
theorem maximalRuns_slice :
    ∀ (l : List Nat) (i : Nat) (s : Nat) (r : List Nat),
      (s, r) ∈ maximalRuns l i →
      i ≤ s ∧ (l.drop (s - i)).take r.length = r ∧ s - i + r.length ≤ l.length := by
  intro l i
  induction l, i using maximalRuns.induct with
  | case1 i =>
    intro s r h
    simp [maximalRuns] at h
  | case2 b rest i hb ih =>
    intro s r h
    rw [maximalRuns, if_pos hb] at h
    rcases List.mem_cons.mp h with heq | ht
    · rw [Prod.mk.injEq] at heq
      obtain ⟨rfl, rfl⟩ := heq
      refine ⟨Nat.le_refl _, ?_, ?_⟩
      · simp only [Nat.sub_self, List.drop_zero, List.length_cons,
          List.take_succ_cons]
        rw [take_length_takeWhile]
      · have := (List.takeWhile_sublist (l := rest) isStringByte).length_le
        simp only [Nat.sub_self, List.length_cons]
        omega
    · obtain ⟨h1, h2, h3⟩ := ih s r ht
      rw [dropWhile_eq_drop] at h2 h3
      rw [List.drop_drop] at h2
      refine ⟨by omega, ?_, ?_⟩
      · rw [show s - i = (s - i - 1) + 1 by omega, List.drop_succ_cons]
        rw [show (rest.takeWhile isStringByte).length +
          (s - (i + 1 + (rest.takeWhile isStringByte).length)) = s - i - 1
          by omega] at h2
        exact h2
      · have htw : (rest.takeWhile isStringByte).length ≤ rest.length :=
          (List.takeWhile_sublist isStringByte).length_le
        simp only [List.length_drop] at h3
        simp only [List.length_cons]
        omega
  | case3 b rest i hb ih =>
    intro s r h
    rw [maximalRuns, if_neg hb] at h
    obtain ⟨h1, h2, h3⟩ := ih s r h
    refine ⟨by omega, ?_, ?_⟩
    · rw [show s - i = (s - (i + 1)) + 1 by omega, List.drop_succ_cons]
      exact h2
    · simp only [List.length_cons]
      omega

/-- An occurrence of a non-empty pattern fits inside the buffer. -/
theorem occ_take_bound (chunk pat : List Nat) (j : Nat) (hne : pat ≠ [])
    (h : (chunk.drop j).take pat.length = pat) :
    j + pat.length ≤ chunk.length := by
  have hlen := congrArg List.length h
  simp only [List.length_take, List.length_drop] at hlen
  have := List.length_pos.mpr hne
  omega

/-- A slice located inside the chunk starting at `base` is the same slice of
the whole buffer. -/
theorem slice_transfer (data : List Nat) (base cs j m : Nat) (bytes : List Nat)
    (hchunk : (((data.drop base).take cs).drop j).take m = bytes)
    (hjm : j + m ≤ ((data.drop base).take cs).length) :
    (data.drop (base + j)).take m = bytes := by
  rw [List.drop_take, List.take_take, List.drop_drop] at hchunk
  simp only [List.length_take, List.length_drop] at hjm
  rw [show min m (cs - j) = m by omega] at hchunk
  exact hchunk

/-- Every finding of `analyze_dump` is an ASCII finding or a pattern finding
of the chunk with its index. -/
theorem mem_analyze_dump (data : List Nat) (ps : List Pattern) (cs ml : Nat)
    (e : ResultEntry) (he : e ∈ (analyze_dump data ps cs ml).1) :
    ∃ k chunk, (chunksOf cs data)[k]? = some chunk ∧
      (e ∈ find_ascii_strings chunk (k * cs) ml ∨
       e ∈ detect_patterns chunk (k * cs) ps) := by
  rw [analyze_dump_fst, List.mem_flatten] at he
  obtain ⟨blk, hblk, hebk⟩ := he
  rw [List.mem_map] at hblk
  obtain ⟨ic, hic, rfl⟩ := hblk
  obtain ⟨-, hget⟩ := mem_enumFrom_getElem? (chunksOf cs data) 0 ic hic
  exact ⟨ic.1, ic.2, by simpa using hget, List.mem_append.mp hebk⟩

/-- A chunk successfully indexed out of `chunksOf` is the corresponding
slice. -/
theorem chunksOf_getElem?_some (cs : Nat) (hcs : 0 < cs) (data : List Nat)
    (k : Nat) (chunk : List Nat) (h : (chunksOf cs data)[k]? = some chunk) :
    chunk = (data.drop (k * cs)).take cs ∧ k * cs < data.length := by
  rw [chunksOf, chunksGo_getElem? cs hcs data.length data (Nat.le_refl _) k] at h
  by_cases hk : k * cs < data.length
  · rw [if_pos hk] at h
    simp only [Option.some.injEq] at h
    exact ⟨h.symm, hk⟩
  · rw [if_neg hk] at h
    simp at h

/-- Each ASCII finding of a chunk is a slice of that chunk, located at its
address relative to the chunk base. -/
theorem ascii_entry_slice (chunk : List Nat) (co ml : Nat) (hml : 0 < ml)
    (e : ResultEntry) (he : e ∈ find_ascii_strings chunk co ml) :
    ∃ st, e.address = co + st ∧
      (chunk.drop st).take e.bytes.length = e.bytes ∧
      st + e.bytes.length ≤ chunk.length := by
  rw [find_ascii_strings_eq chunk co ml hml, List.mem_map] at he
  obtain ⟨r, hr, rfl⟩ := he
  have hr' : (r.1, r.2) ∈ maximalRuns chunk 0 := by
    rw [Prod.mk.eta]
    exact (List.mem_filter.mp hr).1
  obtain ⟨-, h2, h3⟩ := maximalRuns_slice chunk 0 r.1 r.2 hr'
  exact ⟨r.1, rfl, by simpa using h2, by simpa using h3⟩

/-- Each pattern finding of a chunk is an occurrence of one of the table's
patterns, at its address relative to the chunk base, fully inside the
chunk. -/
theorem pattern_entry_slice (chunk : List Nat) (co : Nat) (ps : List Pattern)
    (hps : ∀ p ∈ ps, p.bytes ≠ []) (e : ResultEntry)
    (he : e ∈ detect_patterns chunk co ps) :
    ∃ p ∈ ps, ∃ j, e = patternEntry p (co + j) ∧
      (chunk.drop j).take p.bytes.length = p.bytes ∧
      j + p.bytes.length ≤ chunk.length := by
  rw [detect_patterns_eq chunk co ps hps, List.mem_flatten] at he
  obtain ⟨blk, hblk, heb⟩ := he
  rw [List.mem_map] at hblk
  obtain ⟨p, hp, rfl⟩ := hblk
  rw [List.mem_map] at heb
  obtain ⟨j, hj, rfl⟩ := heb
  have htake := (mem_occList chunk p.bytes (hps p hp) j).mp hj
  exact ⟨p, hp, j, rfl, htake, occ_take_bound chunk p.bytes j (hps p hp) htake⟩

/-- General form of the location invariant: every finding's bytes are the
slice of the input buffer at the finding's address. -/
theorem analyze_dump_locates (data : List Nat) (ps : List Pattern)
    (cs ml : Nat) (hcs : 0 < cs) (hml : 0 < ml)
    (hps : ∀ p ∈ ps, p.bytes ≠ []) (e : ResultEntry)
    (he : e ∈ (analyze_dump data ps cs ml).1) :
    (data.drop e.address).take e.bytes.length = e.bytes := by
  obtain ⟨k, chunk, hk, hcase⟩ := mem_analyze_dump data ps cs ml e he
  obtain ⟨hchunk, hklt⟩ := chunksOf_getElem?_some cs hcs data k chunk hk
  subst hchunk
  rcases hcase with hA | hP
  · obtain ⟨st, haddr, htake, hbound⟩ :=
      ascii_entry_slice _ (k * cs) ml hml e hA
    rw [haddr]
    exact slice_transfer data (k * cs) cs st e.bytes.length e.bytes htake hbound
  · obtain ⟨p, hp, j, rfl, htake, hbound⟩ :=
      pattern_entry_slice _ (k * cs) ps hps e hP
    simp only [patternEntry]
    exact slice_transfer data (k * cs) cs j p.bytes.length p.bytes htake hbound

/-- General form of the chunk-locality of pattern findings: a finding
labelled as a pattern match lies entirely within the single chunk `k` it was
found in. -/
theorem analyze_dump_pattern_within_chunk (data : List Nat) (ps : List Pattern)
    (cs ml : Nat) (hcs : 0 < cs) (hps : ∀ p ∈ ps, p.bytes ≠ [])
    (e : ResultEntry) (he : e ∈ (analyze_dump data ps cs ml).1)
    (hcontent : ∃ p ∈ ps, e.content = "Pattern \x27" ++ p.name ++ "\x27") :
    ∃ k, k * cs ≤ e.address ∧
      e.address + e.bytes.length ≤ min ((k + 1) * cs) data.length ∧
      (data.drop e.address).take e.bytes.length = e.bytes := by
  obtain ⟨k, chunk, hk, hcase⟩ := mem_analyze_dump data ps cs ml e he
  obtain ⟨hchunk, hklt⟩ := chunksOf_getElem?_some cs hcs data k chunk hk
  subst hchunk
  rcases hcase with hA | hP
  · rcases findAsciiGo_mem_shape (k * cs) ml _ 0 [] 0 [] e hA with h | h
    · simp at h
    · obtain ⟨st, run, rfl⟩ := h
      obtain ⟨p, hp, hps'⟩ := hcontent
      exact absurd hps' (ascii_content_ne_pattern_content (lossyAscii run) p.name)
  · obtain ⟨p, hp, j, rfl, htake, hbound⟩ :=
      pattern_entry_slice _ (k * cs) ps hps e hP
    have hchlen : (((data.drop (k * cs)).take cs)).length =
        min cs (data.length - k * cs) := by simp
    refine ⟨k, ?_, ?_, ?_⟩
    · simp only [patternEntry]
      omega
    · simp only [patternEntry]
      rw [show (k + 1) * cs = k * cs + cs by ring]
      omega
    · simp only [patternEntry]
      exact slice_transfer data (k * cs) cs j p.bytes.length p.bytes htake hbound

/-- A found position is in bounds. -/
theorem position_lt {α : Type} (p : α → Bool) :
    ∀ (l : List α) (i : Nat), position p l = some i → i < l.length := by
  intro l
  induction l with
  | nil =>
    intro i h
    simp [position] at h
  | cons x t ih =>
    intro i h
    rw [position] at h
    by_cases hx : p x
    · rw [if_pos hx] at h
      obtain rfl : i = 0 := by simpa using h.symm
      simp
    · rw [if_neg hx] at h
      cases hp : position p t with
      | none => rw [hp] at h; simp at h
      | some i' =>
        rw [hp] at h
        obtain rfl : i = i' + 1 := by simpa using h.symm
        have := ih i' hp
        simp
        omega

/-- `position` finds an element satisfying the predicate, and nothing
earlier satisfies it. -/
theorem position_spec {α : Type} (p : α → Bool) :
    ∀ (l : List α) (i : Nat), position p l = some i →
      ∃ a, l[i]? = some a ∧ p a ∧
        ∀ j < i, ∀ b, l[j]? = some b → ¬ p b := by
  intro l
  induction l with
  | nil =>
    intro i h
    simp [position] at h
  | cons x t ih =>
    intro i h
    rw [position] at h
    by_cases hx : p x
    · rw [if_pos hx] at h
      obtain rfl : i = 0 := by simpa using h.symm
      exact ⟨x, by simp, hx, by omega⟩
    · rw [if_neg hx] at h
      cases hp : position p t with
      | none => rw [hp] at h; simp at h
      | some i' =>
        rw [hp] at h
        obtain rfl : i = i' + 1 := by simpa using h.symm
        obtain ⟨a, h1, h2, h3⟩ := ih i' hp
        refine ⟨a, by simpa using h1, h2, ?_⟩
        intro j hj b hb
        cases j with
        | zero =>
          obtain rfl : x = b := by simpa using hb
          exact hx
        | succ j' => exact h3 j' (by omega) b (by simpa using hb)

/-- Conversely, `position` returns the least index whose element satisfies
the predicate. -/
theorem position_eq_some_of {α : Type} (p : α → Bool) :
    ∀ (l : List α) (i : Nat) (a : α), l[i]? = some a → p a →
      (∀ j < i, ∀ b, l[j]? = some b → ¬ p b) →
      position p l = some i := by
  intro l
  induction l with
  | nil =>
    intro i a h
    simp at h
  | cons x t ih =>
    intro i a h hpa hmin
    cases i with
    | zero =>
      obtain rfl : x = a := by simpa using h
      rw [position, if_pos hpa]
    | succ i' =>
      have hx : ¬ p x := hmin 0 (by omega) x (by simp)
      rw [position, if_neg hx]
      rw [ih i' a (by simpa using h) hpa ?_]
      · rfl
      · intro j hj b hb
        exact hmin (j + 1) (by omega) b (by simpa using hb)

/-- `position` misses exactly when nothing satisfies the predicate. -/
theorem position_eq_none_of {α : Type} (p : α → Bool) :
    ∀ (l : List α), (∀ (j : Nat) (b : α), l[j]? = some b → ¬ p b) →
      position p l = Option.none := by
  intro l
  induction l with
  | nil => intro _; rfl
  | cons x t ih =>
    intro h
    rw [position, if_neg (h 0 x (by simp))]
    have ht : position p t = Option.none := by
      apply ih
      intro j b hb
      exact h (j + 1) b (by simpa using hb)
    rw [ht]
    rfl

/-- The search-Enter transition keeps the cursor in bounds. -/
theorem searchEnter_selected_lt (results : List ResultEntry) (s : UiState)
    (h : s.selected_index < results.length) :
    (searchEnter results s).1.selected_index < results.length := by
  unfold searchEnter
  split
  · split
    · rename_i index hpos
      simpa using position_lt _ results index hpos
    · simpa using h
  · simpa using h

/-- The go-to-address-Enter transition keeps the cursor in bounds. -/
theorem gotoEnter_selected_lt (results : List ResultEntry) (s : UiState)
    (h : s.selected_index < results.length) :
    (gotoEnter results s).1.selected_index < results.length := by
  unfold gotoEnter
  split
  · split
    · rename_i index hpos
      simpa using position_lt _ results index hpos
    · simpa using h
  · simpa using h

/-- Every event-loop transition keeps the cursor strictly inside a non-empty
store. -/
theorem uiStep_selected_lt (results : List ResultEntry) (s : UiState) (k : Key)
    (h : s.selected_index < results.length) :
    (uiStep results s k).1.selected_index < results.length := by
  obtain ⟨sel, pm, inp, err⟩ := s
  simp only at h
  cases k with
  | char c =>
    cases pm with
    | none =>
      simp only [uiStep]
      split_ifs <;> simpa using h
    | search => simpa [uiStep] using h
    | goToAddress => simpa [uiStep] using h
  | enter =>
    cases pm with
    | none => simpa [uiStep] using h
    | search =>
      simp only [uiStep]
      exact searchEnter_selected_lt results _ h
    | goToAddress =>
      simp only [uiStep]
      exact gotoEnter_selected_lt results _ h
  | esc => cases pm <;> simpa [uiStep] using h
  | backspace => cases pm <;> simpa [uiStep] using h
  | up =>
    cases pm with
    | none =>
      simp only [uiStep]
      split_ifs with hc
      · exact Nat.lt_of_le_of_lt (Nat.sub_le sel 1) h
      · exact h
    | search => simpa [uiStep] using h
    | goToAddress => simpa [uiStep] using h
  | down =>
    cases pm with
    | none =>
      simp only [uiStep]
      split_ifs with hc
      · show sel + 1 < results.length
        omega
      · exact h
    | search => simpa [uiStep] using h
    | goToAddress => simpa [uiStep] using h

/-- An `Up` press in normal mode decrements the cursor, saturating at 0. -/
theorem uiStep_up_eq (results : List ResultEntry) (s : UiState)
    (hm : s.popup_mode = PopupMode.none) :
    (uiStep results s Key.up).1 =
      { s with selected_index := s.selected_index - 1 } := by
  obtain ⟨sel, pm, inp, err⟩ := s
  simp only at hm
  subst hm
  simp only [uiStep]
  split_ifs with hc
  · rfl
  · obtain rfl : sel = 0 := by omega
    rfl

/-- A `Down` press in normal mode increments the cursor, saturating at
`len - 1` (given the in-bounds invariant). -/
theorem uiStep_down_eq (results : List ResultEntry) (s : UiState)
    (hm : s.popup_mode = PopupMode.none)
    (hlt : s.selected_index < results.length) :
    (uiStep results s Key.down).1 =
      { s with selected_index := min (s.selected_index + 1) (results.length - 1) } := by
  obtain ⟨sel, pm, inp, err⟩ := s
  simp only at hm hlt
  subst hm
  simp only [uiStep]
  split_ifs with hc
  · rw [show min (sel + 1) (results.length - 1) = sel + 1 by omega]
  · rw [show min (sel + 1) (results.length - 1) = sel by omega]

/-- Over any `Up`/`Down` key sequence in normal mode, the cursor follows the
per-press saturating fold and stays in bounds. -/
theorem uiRun_nav (results : List ResultEntry) :
    ∀ (ks : List Key) (s : UiState), s.popup_mode = PopupMode.none →
      (∀ k ∈ ks, k = Key.up ∨ k = Key.down) →
      s.selected_index < results.length →
      (uiRun results s ks).selected_index =
        navFold results.length s.selected_index ks ∧
      (uiRun results s ks).selected_index < results.length := by
  intro ks
  induction ks with
  | nil =>
    intro s hm hks hlt
    exact ⟨rfl, hlt⟩
  | cons k ks ih =>
    intro s hm hks hlt
    have hchain : uiRun results s (k :: ks) =
        uiRun results (uiStep results s k).1 ks := rfl
    rcases hks k (List.mem_cons_self k ks) with rfl | rfl
    · rw [hchain, uiStep_up_eq results s hm]
      have hnav : navFold results.length s.selected_index (Key.up :: ks) =
          navFold results.length (s.selected_index - 1) ks := by
        simp [navFold]
      rw [hnav]
      exact ih { s with selected_index := s.selected_index - 1 }
        (by simpa using hm) (fun k hk => hks k (List.mem_cons_of_mem _ hk))
        (by simp; omega)
    · rw [hchain, uiStep_down_eq results s hm hlt]
      have hnav : navFold results.length s.selected_index (Key.down :: ks) =
          navFold results.length
            (min (s.selected_index + 1) (results.length - 1)) ks := by
        simp [navFold]
      rw [hnav]
      exact ih { s with selected_index := min (s.selected_index + 1) (results.length - 1) }
        (by simpa using hm) (fun k hk => hks k (List.mem_cons_of_mem _ hk))
        (by simp; omega)

/-- If the hex parse of the input fails, Enter in search mode sets the
error message and changes nothing else (in particular the mode stays
Search). -/
theorem searchEnter_invalid_hex (results : List ResultEntry) (s : UiState)
    (hmode : s.popup_mode = PopupMode.search)
    (hparse : hex_string_to_bytes s.input = Option.none) :
    uiStep results s Key.enter =
      ({ s with error_message := some "Invalid hex format" }, false) := by
  obtain ⟨sel, pm, inp, err⟩ := s
  simp only at hmode hparse
  subst hmode
  simp only [uiStep, searchEnter, hparse]

/-- If the address parse of the input fails, Enter in go-to-address mode
sets the error message and changes nothing else. -/
theorem gotoEnter_invalid_address (results : List ResultEntry) (s : UiState)
    (hmode : s.popup_mode = PopupMode.goToAddress)
    (hparse : fromStrRadix16 usizeMax (trim0x s.input) = Option.none) :
    uiStep results s Key.enter =
      ({ s with error_message := some "Invalid address format" }, false) := by
  obtain ⟨sel, pm, inp, err⟩ := s
  simp only at hmode hparse
  subst hmode
  simp only [uiStep, gotoEnter, hparse]

/-- If the address parses but no finding has address `≥` it, Enter in
go-to-address mode reports "Address not found" and stays in the mode. -/
theorem gotoEnter_miss (results : List ResultEntry) (s : UiState)
    (hmode : s.popup_mode = PopupMode.goToAddress) (a : Nat)
    (hparse : fromStrRadix16 usizeMax (trim0x s.input) = some a)
    (hmiss : ∀ (j : Nat) (e : ResultEntry), results[j]? = some e →
      e.address < a) :
    uiStep results s Key.enter =
      ({ s with error_message := some "Address not found" }, false) := by
  have hpos : position (fun e => decide (a ≤ e.address)) results =
      Option.none := by
    apply position_eq_none_of
    intro j b hb
    have := hmiss j b hb
    simp
    omega
  obtain ⟨sel, pm, inp, err⟩ := s
  simp only at hmode hparse
  subst hmode
  simp only [uiStep, gotoEnter, hparse, hpos]

/-- If the address parses and `i` is the lowest index whose finding has
address `≥` it, Enter in go-to-address mode selects `i` and returns to
normal mode. -/
theorem gotoEnter_hit (results : List ResultEntry) (s : UiState)
    (hmode : s.popup_mode = PopupMode.goToAddress) (a i : Nat)
    (e : ResultEntry) (hparse : fromStrRadix16 usizeMax (trim0x s.input) = some a)
    (hi : results[i]? = some e) (hae : a ≤ e.address)
    (hmin : ∀ j < i, ∀ e2 : ResultEntry, results[j]? = some e2 →
      e2.address < a) :
    uiStep results s Key.enter =
      ({ s with selected_index := i, popup_mode := PopupMode.none }, false) := by
  have hpos : position (fun e => decide (a ≤ e.address)) results = some i := by
    apply position_eq_some_of _ results i e hi (by simpa using hae)
    intro j hj b hb
    have := hmin j hj b hb
    simp
    omega
  obtain ⟨sel, pm, inp, err⟩ := s
  simp only at hmode hparse
  subst hmode
  simp only [uiStep, gotoEnter, hparse, hpos]

/-! ## Claim theorems -/

/-- C1: Within each chunk, for each pattern in table order, the scan reports
every occurrence of the pattern's byte sequence (the resume-at-`p + 1` search
finds them all), and each occurrence yields a Finding whose address is the
chunk base offset plus the match offset and whose bytes are the pattern's
byte sequence. -/
theorem c1_detect_patterns_all_occurrences (chunk : List Nat)
    (chunk_offset : Nat) (patterns : List Pattern)
    (h : ∀ p ∈ patterns, p.bytes ≠ []) :
    detect_patterns chunk chunk_offset patterns =
      (patterns.map (fun p => (occList chunk p.bytes).map
        (fun i => patternEntry p (chunk_offset + i)))).flatten :=
  detect_patterns_eq chunk chunk_offset patterns h

/-- Witness for C1 at a concrete chunk holding two overlapping-free ZIP
occurrences. -/
theorem c1_witness :
    (∀ p ∈ [Pattern.mk "ZIP" [80, 75, 3, 4]], p.bytes ≠ []) ∧
    detect_patterns [80, 75, 3, 4, 80, 75, 3, 4] 16
        [Pattern.mk "ZIP" [80, 75, 3, 4]] =
      ([Pattern.mk "ZIP" [80, 75, 3, 4]].map (fun p =>
        (occList [80, 75, 3, 4, 80, 75, 3, 4] p.bytes).map
          (fun i => patternEntry p (16 + i)))).flatten :=
  ⟨by decide, c1_detect_patterns_all_occurrences _ 16 _ (by decide)⟩

/-- C2: With a positive minimum run length, the ASCII detector emits exactly
one Finding per maximal printable-graphic-or-space run of length at least
`min_length`, at address chunk base + run start, with the run's bytes;
shorter runs yield nothing. -/
theorem c2_ascii_runs (chunk : List Nat) (chunk_offset min_length : Nat)
    (hmin : 0 < min_length) :
    find_ascii_strings chunk chunk_offset min_length =
      ((maximalRuns chunk 0).filter (fun r => min_length ≤ r.2.length)).map
        (fun r => asciiEntry chunk_offset r.1 r.2) :=
  find_ascii_strings_eq chunk chunk_offset min_length hmin

/-- Witness for C2 at a concrete chunk with one long and one short run. -/
theorem c2_witness :
    0 < 6 ∧
    find_ascii_strings [65, 66, 67, 68, 69, 70, 0, 72, 73, 0] 32 6 =
      ((maximalRuns [65, 66, 67, 68, 69, 70, 0, 72, 73, 0] 0).filter
        (fun r => 6 ≤ r.2.length)).map (fun r => asciiEntry 32 r.1 r.2) :=
  ⟨by decide, c2_ascii_runs _ 32 6 (by decide)⟩

/-- C3: The FindingStore lists, chunk by chunk in increasing offset order,
each chunk's ASCII findings followed by its pattern findings in discovery
order; and it is not in general sorted by ascending address (a pattern at
address 0 is listed after an ASCII run at address 1). -/
theorem c3_store_order :
    (∀ (data : List Nat) (patterns : List Pattern) (cs ml : Nat), 0 < cs →
      (analyze_dump data patterns cs ml).1 =
        (((chunksOf cs data).enum).map (fun ic =>
          find_ascii_strings ic.2 (ic.1 * cs) ml ++
            detect_patterns ic.2 (ic.1 * cs) patterns)).flatten) ∧
    ¬ ((analyze_dump [137, 80, 78, 71, 65, 66, 67, 68, 69, 70]
        [Pattern.mk "PNG" [137, 80, 78, 71]] 1024 6).1.map
          (fun e => e.address)).Pairwise (· ≤ ·) := by
  constructor
  · intro data patterns cs ml _
    exact analyze_dump_fst data patterns cs ml
  · decide

/-- Witness for C3's universally quantified conjunct. -/
theorem c3_witness :
    0 < 4 ∧
    (analyze_dump [0, 1, 2, 65, 66] [] 4 6).1 =
      (((chunksOf 4 [0, 1, 2, 65, 66]).enum).map (fun ic =>
        find_ascii_strings ic.2 (ic.1 * 4) 6 ++
          detect_patterns ic.2 (ic.1 * 4) [])).flatten :=
  ⟨by decide, c3_store_order.1 [0, 1, 2, 65, 66] [] 4 6 (by decide)⟩

/-- C4: For every buffer, pattern table, positive chunk size and positive
minimum run length, `total_entries = total_patterns + total_ascii_strings`,
all counts are non-negative, and an empty buffer yields an empty store and an
all-zero summary. -/
theorem c4_summary_counts (data : List Nat) (patterns : List Pattern)
    (cs ml : Nat) (hcs : 0 < cs) (hml : 0 < ml) :
    ((analyze_dump data patterns cs ml).2.total_entries =
      (analyze_dump data patterns cs ml).2.total_patterns +
        (analyze_dump data patterns cs ml).2.total_ascii_strings) ∧
    0 ≤ (analyze_dump data patterns cs ml).2.total_entries ∧
    0 ≤ (analyze_dump data patterns cs ml).2.total_patterns ∧
    0 ≤ (analyze_dump data patterns cs ml).2.total_ascii_strings ∧
    (data = [] →
      analyze_dump data patterns cs ml = ([], ⟨0, 0, 0⟩)) := by
  refine ⟨analyze_dump_counts data patterns cs ml, Nat.zero_le _,
    Nat.zero_le _, Nat.zero_le _, ?_⟩
  rintro rfl
  rfl

/-- Witness for C4. -/
theorem c4_witness :
    0 < 4 ∧ 0 < 6 ∧
    (((analyze_dump [80, 75, 3, 4, 65] [Pattern.mk "ZIP" [80, 75, 3, 4]] 4 6).2.total_entries =
      (analyze_dump [80, 75, 3, 4, 65] [Pattern.mk "ZIP" [80, 75, 3, 4]] 4 6).2.total_patterns +
        (analyze_dump [80, 75, 3, 4, 65] [Pattern.mk "ZIP" [80, 75, 3, 4]] 4 6).2.total_ascii_strings) ∧
    0 ≤ (analyze_dump [80, 75, 3, 4, 65] [Pattern.mk "ZIP" [80, 75, 3, 4]] 4 6).2.total_entries ∧
    0 ≤ (analyze_dump [80, 75, 3, 4, 65] [Pattern.mk "ZIP" [80, 75, 3, 4]] 4 6).2.total_patterns ∧
    0 ≤ (analyze_dump [80, 75, 3, 4, 65] [Pattern.mk "ZIP" [80, 75, 3, 4]] 4 6).2.total_ascii_strings ∧
    ([80, 75, 3, 4, 65] = ([] : List Nat) →
      analyze_dump [80, 75, 3, 4, 65] [Pattern.mk "ZIP" [80, 75, 3, 4]] 4 6 = ([], ⟨0, 0, 0⟩))) :=
  ⟨by decide, by decide,
    c4_summary_counts [80, 75, 3, 4, 65] [Pattern.mk "ZIP" [80, 75, 3, 4]] 4 6
      (by decide) (by decide)⟩

/-- C5: A pattern occurrence straddling a chunk boundary produces no Finding
(concretely: a ZIP signature spanning bytes 2..6 with chunk size 4 is
missed), and every pattern Finding the scan reports lies entirely within a
single chunk and matches the buffer there. -/
theorem c5_pattern_findings_within_chunk :
    ((([0, 0, 80, 75, 3, 4] : List Nat).drop 2).take 4 = [80, 75, 3, 4] ∧
     (analyze_dump [0, 0, 80, 75, 3, 4]
        [Pattern.mk "ZIP" [80, 75, 3, 4]] 4 6).1 = []) ∧
    (∀ (data : List Nat) (patterns : List Pattern) (cs ml : Nat), 0 < cs →
      (∀ p ∈ patterns, p.bytes ≠ []) →
      ∀ e ∈ (analyze_dump data patterns cs ml).1,
        (∃ p ∈ patterns, e.content = "Pattern \x27" ++ p.name ++ "\x27") →
        ∃ k, k * cs ≤ e.address ∧
          e.address + e.bytes.length ≤ min ((k + 1) * cs) data.length ∧
          (data.drop e.address).take e.bytes.length = e.bytes) := by
  refine ⟨⟨by decide, by decide⟩, ?_⟩
  intro data patterns cs ml hcs hps e he hc
  exact analyze_dump_pattern_within_chunk data patterns cs ml hcs hps e he hc

/-- Witness for C5's universally quantified conjunct at a concrete scan with
one pattern finding. -/
theorem c5_witness :
    0 < 1024 ∧
    (∀ p ∈ [Pattern.mk "ZIP" [80, 75, 3, 4]], p.bytes ≠ []) ∧
    (⟨"Pattern \x27ZIP\x27", 0, [80, 75, 3, 4]⟩ : ResultEntry) ∈
      (analyze_dump [80, 75, 3, 4] [Pattern.mk "ZIP" [80, 75, 3, 4]] 1024 6).1 ∧
    (∃ p ∈ [Pattern.mk "ZIP" [80, 75, 3, 4]],
      (⟨"Pattern \x27ZIP\x27", 0, [80, 75, 3, 4]⟩ : ResultEntry).content =
        "Pattern \x27" ++ p.name ++ "\x27") ∧
    (∃ k, k * 1024 ≤ (⟨"Pattern \x27ZIP\x27", 0, [80, 75, 3, 4]⟩ : ResultEntry).address ∧
      (⟨"Pattern \x27ZIP\x27", 0, [80, 75, 3, 4]⟩ : ResultEntry).address +
          (⟨"Pattern \x27ZIP\x27", 0, [80, 75, 3, 4]⟩ : ResultEntry).bytes.length ≤
        min ((k + 1) * 1024) ([80, 75, 3, 4] : List Nat).length ∧
      (([80, 75, 3, 4] : List Nat).drop
          (⟨"Pattern \x27ZIP\x27", 0, [80, 75, 3, 4]⟩ : ResultEntry).address).take
          (⟨"Pattern \x27ZIP\x27", 0, [80, 75, 3, 4]⟩ : ResultEntry).bytes.length =
        (⟨"Pattern \x27ZIP\x27", 0, [80, 75, 3, 4]⟩ : ResultEntry).bytes) :=
  ⟨by decide, by decide, by decide, by decide,
    c5_pattern_findings_within_chunk.2 [80, 75, 3, 4]
      [Pattern.mk "ZIP" [80, 75, 3, 4]] 1024 6 (by decide) (by decide)
      ⟨"Pattern \x27ZIP\x27", 0, [80, 75, 3, 4]⟩ (by decide) (by decide)⟩

/-- C6 counterexample: the odd-length input "0" is malformed per the claim,
yet it parses successfully (a lone hex digit is its own byte), and pressing
Enter yields "No match found" (over an empty store), not
"Invalid hex format". -/
theorem c6_counterexample :
    hex_string_to_bytes ['0'] = some [0] ∧
    (uiStep [] ⟨0, PopupMode.search, ['0'], Option.none⟩ Key.enter).1.error_message =
      some "No match found" ∧
    (uiStep [] ⟨0, PopupMode.search, ['0'], Option.none⟩ Key.enter).1.popup_mode =
      PopupMode.search ∧
    (some "No match found" : Option String) ≠ some "Invalid hex format" :=
  ⟨by decide, by decide, by decide, by decide⟩

/-- C6 (amended): When Enter is pressed in SearchInput mode the input is
parsed as 2-hex-digit pairs (a trailing lone digit parsing as its own byte),
and exactly when that parse fails — e.g. on a non-hex character — the
error message is set to "Invalid hex format" and the mode remains
SearchInput. -/
theorem c6_amended_search_enter (results : List ResultEntry) (s : UiState)
    (hmode : s.popup_mode = PopupMode.search)
    (hparse : hex_string_to_bytes s.input = Option.none) :
    (uiStep results s Key.enter).1.error_message = some "Invalid hex format" ∧
    (uiStep results s Key.enter).1.popup_mode = PopupMode.search ∧
    (uiStep results s Key.enter).1.selected_index = s.selected_index ∧
    (uiStep results s Key.enter).2 = false := by
  rw [searchEnter_invalid_hex results s hmode hparse]
  exact ⟨rfl, hmode, rfl, rfl⟩

/-- Witness for the amended C6 at the non-hex input "z". -/
theorem c6_witness :
    (⟨0, PopupMode.search, ['z'], Option.none⟩ : UiState).popup_mode =
      PopupMode.search ∧
    hex_string_to_bytes (⟨0, PopupMode.search, ['z'], Option.none⟩ : UiState).input =
      Option.none ∧
    ((uiStep [] ⟨0, PopupMode.search, ['z'], Option.none⟩ Key.enter).1.error_message =
      some "Invalid hex format" ∧
     (uiStep [] ⟨0, PopupMode.search, ['z'], Option.none⟩ Key.enter).1.popup_mode =
      PopupMode.search ∧
     (uiStep [] ⟨0, PopupMode.search, ['z'], Option.none⟩ Key.enter).1.selected_index =
      (⟨0, PopupMode.search, ['z'], Option.none⟩ : UiState).selected_index ∧
     (uiStep [] ⟨0, PopupMode.search, ['z'], Option.none⟩ Key.enter).2 = false) :=
  ⟨by decide, by decide,
    c6_amended_search_enter [] ⟨0, PopupMode.search, ['z'], Option.none⟩
      (by decide) (by decide)⟩

/-- C7 counterexample: for the input "0x0x10" the claim's parse (at most one
leading "0x" stripped) fails, so the claim demands "Invalid address format"
and an unchanged mode; the code instead strips both "0x" prefixes, parses
0x10, jumps to the first finding with address ≥ 0x10 and returns to normal
mode with no error. -/
theorem c7_counterexample :
    fromStrRadix16 usizeMax (stripOnce0x ['0', 'x', '0', 'x', '1', '0']) =
      Option.none ∧
    (uiStep [⟨"x", 32, [1]⟩]
      ⟨0, PopupMode.goToAddress, ['0', 'x', '0', 'x', '1', '0'], Option.none⟩
      Key.enter).1.popup_mode = PopupMode.none ∧
    (uiStep [⟨"x", 32, [1]⟩]
      ⟨0, PopupMode.goToAddress, ['0', 'x', '0', 'x', '1', '0'], Option.none⟩
      Key.enter).1.error_message = Option.none ∧
    (uiStep [⟨"x", 32, [1]⟩]
      ⟨0, PopupMode.goToAddress, ['0', 'x', '0', 'x', '1', '0'], Option.none⟩
      Key.enter).2 = false :=
  ⟨by decide, by decide, by decide, by decide⟩

/-- C7 (amended): on Enter in GoToAddressInput mode the input with ALL
leading "0x" prefixes stripped is parsed as Rust's unsigned
`from_str_radix(_, 16)` does (optional sign, value below 2^64): on parse
failure the error message is "Invalid address format" with the mode
unchanged; on success, if no finding has address ≥ the value the error
message is "Address not found" with the mode unchanged, and otherwise the
lowest index whose finding has address ≥ the value is selected and the mode
becomes Normal. -/
theorem c7_amended_goto_enter (results : List ResultEntry) (s : UiState)
    (hmode : s.popup_mode = PopupMode.goToAddress) :
    (fromStrRadix16 usizeMax (trim0x s.input) = Option.none →
      (uiStep results s Key.enter).1.error_message =
        some "Invalid address format" ∧
      (uiStep results s Key.enter).1.popup_mode = PopupMode.goToAddress) ∧
    (∀ a, fromStrRadix16 usizeMax (trim0x s.input) = some a →
      ((∀ (j : Nat) (e : ResultEntry), results[j]? = some e →
          e.address < a) →
        (uiStep results s Key.enter).1.error_message =
          some "Address not found" ∧
        (uiStep results s Key.enter).1.popup_mode = PopupMode.goToAddress) ∧
      (∀ (i : Nat) (e : ResultEntry), results[i]? = some e → a ≤ e.address →
        (∀ j < i, ∀ e2 : ResultEntry, results[j]? = some e2 →
          e2.address < a) →
        (uiStep results s Key.enter).1.selected_index = i ∧
        (uiStep results s Key.enter).1.popup_mode = PopupMode.none)) := by
  refine ⟨?_, ?_⟩
  · intro hparse
    rw [gotoEnter_invalid_address results s hmode hparse]
    exact ⟨rfl, hmode⟩
  · intro a hparse
    refine ⟨?_, ?_⟩
    · intro hmiss
      rw [gotoEnter_miss results s hmode a hparse hmiss]
      exact ⟨rfl, hmode⟩
    · intro i e hi hae hmin
      rw [gotoEnter_hit results s hmode a i e hparse hi hae hmin]
      exact ⟨rfl, rfl⟩

/-- Witness for the amended C7: input "0x10" over a store whose first
finding has address 0x20 selects index 0 and returns to normal mode. -/
theorem c7_witness :
    (⟨0, PopupMode.goToAddress, ['0', 'x', '1', '0'], Option.none⟩ : UiState).popup_mode =
      PopupMode.goToAddress ∧
    fromStrRadix16 usizeMax
      (trim0x (⟨0, PopupMode.goToAddress, ['0', 'x', '1', '0'], Option.none⟩ : UiState).input) =
      some 16 ∧
    ([(⟨"x", 32, [1]⟩ : ResultEntry)][0]? = some ⟨"x", 32, [1]⟩) ∧
    (16 ≤ (⟨"x", 32, [1]⟩ : ResultEntry).address) ∧
    ((uiStep [⟨"x", 32, [1]⟩]
        ⟨0, PopupMode.goToAddress, ['0', 'x', '1', '0'], Option.none⟩
        Key.enter).1.selected_index = 0 ∧
     (uiStep [⟨"x", 32, [1]⟩]
        ⟨0, PopupMode.goToAddress, ['0', 'x', '1', '0'], Option.none⟩
        Key.enter).1.popup_mode = PopupMode.none) :=
  ⟨by decide, by decide, by decide, by decide,
    (c7_amended_goto_enter [⟨"x", 32, [1]⟩]
      ⟨0, PopupMode.goToAddress, ['0', 'x', '1', '0'], Option.none⟩
      (by decide)).2 16 (by decide) |>.2 0 ⟨"x", 32, [1]⟩ (by decide)
      (by decide) (by intro j hj e2 h2; omega)⟩

/-- C8 counterexample: over a 2-element store, starting at index 1, the
sequence Down-then-Up has net delta 0, so the claim predicts
clamp(1 + 0, 0, 1) = 1; the code's final index is 0 (the Down press is
clamped away but the Up press still moves). -/
theorem c8_counterexample :
    (uiRun [⟨"a", 0, []⟩, ⟨"b", 1, []⟩]
      ⟨1, PopupMode.none, [], Option.none⟩
      [Key.down, Key.up]).selected_index = 0 ∧
    clampInt ((1 : Int) + ((1 : Int) - (1 : Int))) 0 ((2 : Int) - 1) = 1 ∧
    ((uiRun [⟨"a", 0, []⟩, ⟨"b", 1, []⟩]
      ⟨1, PopupMode.none, [], Option.none⟩
      [Key.down, Key.up]).selected_index : Int) ≠
      clampInt ((1 : Int) + ((1 : Int) - (1 : Int))) 0 ((2 : Int) - 1) :=
  ⟨by decide, by decide, by decide⟩

/-- C8 (amended): in Normal mode over a non-empty store, after any Up/Down
sequence the selected index equals the left fold of per-press saturating
updates (Up: decrement clamped at 0; Down: increment clamped at len-1) over
the sequence, and in particular stays within bounds. -/
theorem c8_amended_navigation (results : List ResultEntry) (ks : List Key)
    (s : UiState) (hm : s.popup_mode = PopupMode.none)
    (hks : ∀ k ∈ ks, k = Key.up ∨ k = Key.down)
    (hlt : s.selected_index < results.length) :
    (uiRun results s ks).selected_index =
      navFold results.length s.selected_index ks ∧
    (uiRun results s ks).selected_index < results.length :=
  uiRun_nav results ks s hm hks hlt

/-- Witness for the amended C8 on the counterexample's Down-Up sequence. -/
theorem c8_witness :
    (⟨1, PopupMode.none, [], Option.none⟩ : UiState).popup_mode =
      PopupMode.none ∧
    (∀ k ∈ [Key.down, Key.up], k = Key.up ∨ k = Key.down) ∧
    (⟨1, PopupMode.none, [], Option.none⟩ : UiState).selected_index <
      ([⟨"a", 0, []⟩, ⟨"b", 1, []⟩] : List ResultEntry).length ∧
    ((uiRun [⟨"a", 0, []⟩, ⟨"b", 1, []⟩]
        ⟨1, PopupMode.none, [], Option.none⟩
        [Key.down, Key.up]).selected_index =
      navFold ([⟨"a", 0, []⟩, ⟨"b", 1, []⟩] : List ResultEntry).length
        (⟨1, PopupMode.none, [], Option.none⟩ : UiState).selected_index
        [Key.down, Key.up] ∧
     (uiRun [⟨"a", 0, []⟩, ⟨"b", 1, []⟩]
        ⟨1, PopupMode.none, [], Option.none⟩
        [Key.down, Key.up]).selected_index <
      ([⟨"a", 0, []⟩, ⟨"b", 1, []⟩] : List ResultEntry).length) :=
  ⟨by decide, by decide, by decide,
    c8_amended_navigation [⟨"a", 0, []⟩, ⟨"b", 1, []⟩] [Key.down, Key.up]
      ⟨1, PopupMode.none, [], Option.none⟩ (by decide) (by decide) (by decide)⟩

/-- C9: Whenever the store is non-empty, `0 ≤ selected_index < len` holds in
the initial browser state and is preserved by every event-loop transition
(every key in every mode, including both Enter actions). -/
theorem c9_selected_index_invariant (results : List ResultEntry)
    (hne : results ≠ []) :
    initUiState.selected_index < results.length ∧
    ∀ (s : UiState) (k : Key), s.selected_index < results.length →
      (uiStep results s k).1.selected_index < results.length := by
  refine ⟨?_, fun s k h => uiStep_selected_lt results s k h⟩
  have := List.length_pos.mpr hne
  simpa [initUiState] using this

/-- Witness for C9 over a one-element store. -/
theorem c9_witness :
    ([⟨"a", 0, []⟩] : List ResultEntry) ≠ [] ∧
    (initUiState.selected_index < ([⟨"a", 0, []⟩] : List ResultEntry).length ∧
     ∀ (s : UiState) (k : Key),
       s.selected_index < ([⟨"a", 0, []⟩] : List ResultEntry).length →
       (uiStep [⟨"a", 0, []⟩] s k).1.selected_index <
         ([⟨"a", 0, []⟩] : List ResultEntry).length) :=
  ⟨by decide, c9_selected_index_invariant [⟨"a", 0, []⟩] (by decide)⟩

/-- C10: Every Finding of a scan (ASCII-run and pattern alike) locates its
content accurately: the buffer slice of length `len(bytes)` starting at the
Finding's address equals its bytes. -/
theorem c10_findings_locate_content (data : List Nat)
    (patterns : List Pattern) (cs ml : Nat) (hcs : 0 < cs) (hml : 0 < ml)
    (hps : ∀ p ∈ patterns, p.bytes ≠ []) :
    ∀ e ∈ (analyze_dump data patterns cs ml).1,
      (data.drop e.address).take e.bytes.length = e.bytes :=
  fun e he => analyze_dump_locates data patterns cs ml hcs hml hps e he

/-- Witness for C10 on a scan producing an ASCII finding and a pattern
finding. -/
theorem c10_witness :
    0 < 1024 ∧ 0 < 6 ∧
    (∀ p ∈ [Pattern.mk "ZIP" [80, 75, 3, 4]], p.bytes ≠ []) ∧
    (∀ e ∈ (analyze_dump [65, 66, 67, 68, 69, 70, 0, 80, 75, 3, 4]
        [Pattern.mk "ZIP" [80, 75, 3, 4]] 1024 6).1,
      (([65, 66, 67, 68, 69, 70, 0, 80, 75, 3, 4] : List Nat).drop e.address).take
          e.bytes.length = e.bytes) :=
  ⟨by decide, by decide, by decide,
    c10_findings_locate_content [65, 66, 67, 68, 69, 70, 0, 80, 75, 3, 4]
      [Pattern.mk "ZIP" [80, 75, 3, 4]] 1024 6 (by decide) (by decide)
      (by decide)⟩

end DumpAnalyzer
